import Mathlib

/-!
Verification of the segmentation / reassembly core of `Resume.py`
(`ResumeModifier.extract_intro_and_sections`, `ResumeModifier.assemble_resume`,
and the tailoring loop of `ResumeModifier.tailor_sections_with_model`).

Documents are modelled as `List Char`.  Python string primitives used by the
source are embedded faithfully:
  * `s.split(m, 1)` / `s.partition(m)` / `re.search` locate the first
    occurrence of a literal marker: `spanToOcc`;
  * `s.rpartition(m)` locates the last occurrence: `rpartAfter`;
  * `re.split(r"(?=\\section\*?|\\section)", t)` cuts `t` immediately before
    every occurrence of the literal `\section` (a zero-width lookahead split;
    both regex alternatives require the literal `\section` at the match
    position and the match start is that position, so the set of cut
    positions is exactly the set of positions where `\section` occurs):
    `splitMarks`;
  * `str.strip()`: `strip`.
-/

namespace ResumeSpec

/-- Whitespace test used by Python `str.strip` (modelled by `Char.isWhitespace`). -/
def ws (c : Char) : Bool := c.isWhitespace

/-- Drop leading whitespace (left half of Python `str.strip`). -/
def stripL (s : List Char) : List Char := s.dropWhile ws

/-- Drop trailing whitespace (right half of Python `str.strip`). -/
def stripR (s : List Char) : List Char := (s.reverse.dropWhile ws).reverse

/-- Python `str.strip`: remove leading and trailing whitespace. -/
def strip (s : List Char) : List Char := stripR (stripL s)

/-- The literal marker `\begin{document}`. -/
def beginMark : List Char := ("\\begin{document}").data

/-- The literal marker `\end{document}`. -/
def endMark : List Char := ("\\end{document}").data

/-- The literal marker `\section` (common prefix of `\section` and `\section*`). -/
def secMark : List Char := ("\\section").data

/-- The separator `"\n\n"` used by `assemble_resume`. -/
def nl2 : List Char := ['\n', '\n']

/-- `x` is a prefix of `y`. -/
def IsPref (x y : List Char) : Prop := ∃ t, y = x ++ t

/-- `pat` occurs in `s` as a substring starting at index `i`. -/
def Occ (pat s : List Char) (i : Nat) : Prop :=
  ∃ u v, s = u ++ pat ++ v ∧ u.length = i

/-- Number of positions at which `pat` occurs in `s` (for nonempty `pat`). -/
def occCount (pat : List Char) : List Char → Nat
  | [] => 0
  | c :: t => (if pat.isPrefixOf (c :: t) then 1 else 0) + occCount pat t

/-- Split `s` at the first occurrence of `pat`: `(text before it, text from it on)`;
`(s, [])` when `pat` does not occur.  This models the split position used by
`str.split(m, 1)`, `str.partition(m)` and `re.search` in the source. -/
def spanToOcc (pat : List Char) : List Char → List Char × List Char
  | [] => ([], [])
  | c :: t =>
    if pat.isPrefixOf (c :: t) then ([], c :: t)
    else (c :: (spanToOcc pat t).1, (spanToOcc pat t).2)

/-- Prepend a character to the first block of a list of blocks. -/
def consHead (c : Char) : List (List Char) → List (List Char)
  | [] => [[c]]
  | g :: gs => (c :: g) :: gs

/-- `re.split` with a zero-width lookahead for `pat`: cut `s` immediately
before every position at which `pat` occurs (the marker stays attached to the
block that follows it).  A cut at position 0 produces a leading empty block,
as in Python. -/
def splitMarks (pat : List Char) : List Char → List (List Char)
  | [] => [[]]
  | c :: t =>
    if pat.isPrefixOf (c :: t) then [] :: consHead c (splitMarks pat t)
    else consHead c (splitMarks pat t)

/-- Concatenation of a list of blocks. -/
def catAll : List (List Char) → List Char
  | [] => []
  | g :: gs => g ++ catAll gs

/-- Python `"\n\n".join(blocks)`. -/
def joinNl : List (List Char) → List Char
  | [] => []
  | [s] => s
  | s :: rest => s ++ nl2 ++ joinNl rest

/-- Python `s.rpartition(pat)` seen from the right: `some (pat ++ everything
after the last occurrence)` when `pat` occurs in `s`, else `none`.  The source
uses `sep + end if sep else default`. -/
def rpartAfter (pat : List Char) : List Char → Option (List Char)
  | [] => none
  | c :: t =>
    match rpartAfter pat t with
    | some r => some r
    | none => if pat.isPrefixOf (c :: t) then some (c :: t) else none

/-- Errors of `extract_intro_and_sections`.  `MalformedDocument` models the
`IndexError` raised by `resume_content.split("\\begin{document}", 1)[1]` when
the marker is absent; `NoSectionsFound` models
`raise ValueError("No sections found in resume.")`. -/
inductive ExtractErr
  | MalformedDocument
  | NoSectionsFound
deriving DecidableEq

/-- The body used by `extract_intro_and_sections`: everything after the first
`\begin{document}` and before the first following `\end{document}` (to the end
of the text when no `\end{document}` follows).  Source lines 84-86. -/
def bodyOf (doc : List Char) : List Char :=
  (spanToOcc endMark ((spanToOcc beginMark doc).2.drop beginMark.length)).1

/-- `ResumeModifier.extract_intro_and_sections` (source lines 76-101):
split the body at the first `\section`, strip the intro, cut the rest before
every `\section` occurrence, strip each block and drop the empty ones. -/
def extract (doc : List Char) :
    Except ExtractErr (List Char × List (List Char)) :=
  if ((spanToOcc beginMark doc).2).isEmpty then
    Except.error ExtractErr.MalformedDocument
  else
    if ((spanToOcc secMark (bodyOf doc)).2).isEmpty then
      Except.error ExtractErr.NoSectionsFound
    else
      Except.ok (strip (spanToOcc secMark (bodyOf doc)).1,
        ((splitMarks secMark (spanToOcc secMark (bodyOf doc)).2).map strip).filter
          (fun l => !l.isEmpty))

/-- The preamble as computed by `assemble_resume`:
`preamble, _, _ = resume_content.partition("\\begin{document}")` — Python
`partition` returns the whole string as the first component when the
separator is absent. -/
def preambleOf (doc : List Char) : List Char :=
  if ((spanToOcc beginMark doc).2).isEmpty then doc else (spanToOcc beginMark doc).1

/-- The end block as computed by `assemble_resume`:
`_, sep, end = resume_content.rpartition("\\end{document}")` followed by
`end_document = sep + end if sep else "\\end{document}"`. -/
def endDocumentOf (doc : List Char) : List Char :=
  (rpartAfter endMark doc).getD endMark

/-- The output text of `ResumeModifier.assemble_resume` (source lines 196-202):
`preamble + "\\begin{document}\n\n" + intro + "\n\n" + "\n\n".join(sections)
 + "\n\n" + end_document`. -/
def assemble (doc intro : List Char) (secs : List (List Char)) : List Char :=
  preambleOf doc ++ beginMark ++ nl2 ++ intro ++ nl2 ++ joinNl secs ++ nl2 ++
    endDocumentOf doc

/-- Modelled from the spec: index of the first occurrence of `pat` in `s`. -/
def findIdx (pat : List Char) : List Char → Option Nat
  | [] => none
  | c :: t =>
    if pat.isPrefixOf (c :: t) then some 0 else (findIdx pat t).map (fun n => n + 1)

/-- Modelled from the spec: index of the last occurrence of `pat` in `s`. -/
def findLastIdx (pat : List Char) : List Char → Option Nat
  | [] => none
  | c :: t =>
    match findLastIdx pat t with
    | some n => some (n + 1)
    | none => if pat.isPrefixOf (c :: t) then some 0 else none

/-- The assembled output exactly as the claim words it: the preamble is the
substring before the first `\begin{document}` occurrence and is EMPTY when
that marker is absent; the end block is the last `\end{document}` occurrence
with everything after it, or the literal marker when absent. -/
def assembleClaimed (doc intro : List Char) (secs : List (List Char)) : List Char :=
  (match findIdx beginMark doc with
   | none => []
   | some i => doc.take i) ++ beginMark ++ nl2 ++ intro ++ nl2 ++ joinNl secs
    ++ nl2 ++
      (match findLastIdx endMark doc with
       | none => endMark
       | some j => doc.drop j)

/-- The assembled output with the claim's preamble clause amended to what the
code does: when `\begin{document}` is absent from the original, the ENTIRE
original text (not the empty string) is used as the preamble. -/
def assembleAmended (doc intro : List Char) (secs : List (List Char)) : List Char :=
  (match findIdx beginMark doc with
   | none => doc
   | some i => doc.take i) ++ beginMark ++ nl2 ++ intro ++ nl2 ++ joinNl secs
    ++ nl2 ++
      (match findLastIdx endMark doc with
       | none => endMark
       | some j => doc.drop j)

/-- One iteration of the tailoring loop (source line 139):
`edited_sec = response.get("response", sec)`.  The collaborator's reply is
modelled as `none` when the `"response"` key is missing and `some v` when it
is present with value `v`; `dict.get` falls back to `sec` only when the key
is missing. -/
def editedSection (response : Option (List Char)) (sec : List Char) : List Char :=
  response.getD sec

/-- The tailoring loop of `tailor_sections_with_model` (source lines 129-142),
one collaborator reply per section. -/
def tailorSections (responses : List (Option (List Char)))
    (secs : List (List Char)) : List (List Char) :=
  List.zipWith editedSection responses secs

/-- Observable side effects performed by `assemble_resume` beyond returning. -/
inductive Effect
  | writeFile (path content : List Char)
  | runProcess (args : List (List Char))
deriving DecidableEq

/-- The effect trace of `ResumeModifier.assemble_resume` (source lines
205-208): after building `new_content` it opens `self.outfile` and writes the
text, then runs `latexmk -cd -pdf` on that file via `subprocess.run`. -/
def assembleResumeEffects (outfile doc intro : List Char)
    (secs : List (List Char)) : List Effect :=
  [Effect.writeFile outfile (assemble doc intro secs),
   Effect.runProcess
     [("latexmk").data, ("-cd").data, ("-pdf").data, outfile]]

/-- `pat` does not overlap itself: no proper nonempty suffix-by-shift of `pat`
is a prefix of `pat`.  All three literal markers satisfy this (their only
backslash is the first character). -/
def Unbordered (pat : List Char) : Prop :=
  ∀ d, d < pat.length → 0 < d → ¬ IsPref (pat.drop d) pat

/-- Decidability of `IsPref` via the executable `List.isPrefixOf`. -/
instance decIsPref (x y : List Char) : Decidable (IsPref x y) :=
  decidable_of_iff (x.isPrefixOf y = true) (by
    induction x generalizing y with
    | nil =>
      refine iff_of_true ?_ ⟨y, rfl⟩
      cases y <;> rfl
    | cons a x ih =>
      cases y with
      | nil =>
        simp only [List.isPrefixOf, IsPref]
        constructor
        · intro h; cases h
        · rintro ⟨t, ht⟩; cases ht
      | cons b ys =>
        simp only [List.isPrefixOf, Bool.and_eq_true, beq_iff_eq, ih ys, IsPref]
        constructor
        · rintro ⟨rfl, t, rfl⟩; exact ⟨t, rfl⟩
        · rintro ⟨t, ht⟩
          rw [List.cons_append] at ht
          cases ht
          exact ⟨rfl, t, rfl⟩)

/-- Decidability of `Occ` via the executable `List.isPrefixOf` on `s.drop i`. -/
instance decOcc (pat s : List Char) (i : Nat) : Decidable (Occ pat s i) :=
  decidable_of_iff (IsPref pat (s.drop i) ∧ i ≤ s.length) (by
    constructor
    · rintro ⟨⟨t, ht⟩, hi⟩
      refine ⟨s.take i, t, ?_, ?_⟩
      · have h2 := List.take_append_drop i s
        rw [ht, ← List.append_assoc] at h2
        exact h2.symm
      · simp only [List.length_take]
        exact Nat.min_eq_left hi
    · rintro ⟨u, v, rfl, rfl⟩
      constructor
      · refine ⟨v, ?_⟩
        rw [List.append_assoc, List.drop_left]
      · simp only [List.length_append]
        omega)

instance decUnbordered (pat : List Char) : Decidable (Unbordered pat) := by
  unfold Unbordered
  infer_instance

/-! Basic facts about `IsPref` and `Occ`. -/

theorem isPref_iff : ∀ (x y : List Char), x.isPrefixOf y = true ↔ IsPref x y := by
  intro x
  induction x with
  | nil =>
    intro y
    refine iff_of_true ?_ ⟨y, rfl⟩
    cases y <;> rfl
  | cons a x ih =>
    intro y
    cases y with
    | nil =>
      refine iff_of_false ?_ ?_
      · intro h; cases h
      · rintro ⟨t, ht⟩; cases ht
    | cons b ys =>
      simp only [List.isPrefixOf, Bool.and_eq_true, beq_iff_eq, ih ys, IsPref]
      constructor
      · rintro ⟨rfl, t, rfl⟩; exact ⟨t, rfl⟩
      · rintro ⟨t, ht⟩
        rw [List.cons_append] at ht
        cases ht
        exact ⟨rfl, t, rfl⟩

theorem isPref_refl (x : List Char) : IsPref x x := ⟨[], (List.append_nil x).symm⟩

theorem isPref_append_right {x y : List Char} (z : List Char) (h : IsPref x y) :
    IsPref x (y ++ z) := by
  obtain ⟨t, rfl⟩ := h
  exact ⟨t ++ z, by rw [List.append_assoc]⟩

theorem isPref_length {x y : List Char} (h : IsPref x y) : x.length ≤ y.length := by
  obtain ⟨t, rfl⟩ := h
  simp [List.length_append]

theorem take_of_isPref {x y : List Char} (h : IsPref x y) : y.take x.length = x := by
  obtain ⟨t, rfl⟩ := h
  exact List.take_left x t

theorem isPref_of_take (n : Nat) (y : List Char) : IsPref (y.take n) y :=
  ⟨y.drop n, (List.take_append_drop n y).symm⟩

theorem isPref_trans {x y z : List Char} (h1 : IsPref x y) (h2 : IsPref y z) :
    IsPref x z := by
  obtain ⟨t, rfl⟩ := h1
  obtain ⟨u, rfl⟩ := h2
  exact ⟨t ++ u, by rw [List.append_assoc]⟩

theorem isPref_of_append {x y z : List Char} (h : IsPref x (y ++ z))
    (hl : x.length ≤ y.length) : IsPref x y := by
  have hx : (y ++ z).take x.length = x := take_of_isPref h
  rw [List.take_append_eq_append_take, Nat.sub_eq_zero_of_le hl, List.take_zero,
    List.append_nil] at hx
  rw [← hx]
  exact isPref_of_take x.length y

theorem isPref_of_both {a b z : List Char} (ha : IsPref a z) (hb : IsPref b z)
    (hl : a.length ≤ b.length) : IsPref a b := by
  have h1 : z.take a.length = a := take_of_isPref ha
  have h2 : z.take b.length = b := take_of_isPref hb
  have h3 : a = b.take a.length := by
    rw [← h2, List.take_take, Nat.min_eq_left hl, h1]
  rw [h3]
  exact isPref_of_take a.length b

theorem isPref_ne_nil {x y : List Char} (h : IsPref x y) (hx : x ≠ []) : y ≠ [] := by
  obtain ⟨t, rfl⟩ := h
  intro he
  rcases List.append_eq_nil.mp he with ⟨h1, _⟩
  exact hx h1

theorem occ_iff_drop {pat s : List Char} {i : Nat} :
    Occ pat s i ↔ IsPref pat (s.drop i) ∧ i ≤ s.length := by
  constructor
  · rintro ⟨u, v, rfl, rfl⟩
    constructor
    · refine ⟨v, ?_⟩
      rw [List.append_assoc, List.drop_left]
    · simp only [List.length_append]
      omega
  · rintro ⟨⟨t, ht⟩, hi⟩
    refine ⟨s.take i, t, ?_, ?_⟩
    · have h2 := List.take_append_drop i s
      rw [ht, ← List.append_assoc] at h2
      exact h2.symm
    · simp only [List.length_take]
      exact Nat.min_eq_left hi

theorem occ_zero {pat s : List Char} : Occ pat s 0 ↔ IsPref pat s := by
  constructor
  · rintro ⟨u, v, rfl, hu⟩
    rw [List.length_eq_zero] at hu
    subst hu
    exact ⟨v, by simp⟩
  · rintro ⟨t, rfl⟩
    exact ⟨[], t, rfl, rfl⟩

theorem occ_cons {pat : List Char} {c : Char} {t : List Char} {i : Nat} :
    Occ pat (c :: t) (i + 1) ↔ Occ pat t i := by
  constructor
  · rintro ⟨u, v, he, hu⟩
    cases u with
    | nil => cases hu
    | cons a u =>
      rw [List.cons_append, List.cons_append] at he
      injection he with h1 h2
      exact ⟨u, v, h2, by simpa using hu⟩
  · rintro ⟨u, v, rfl, rfl⟩
    exact ⟨c :: u, v, rfl, by simp⟩

theorem occ_length {pat s : List Char} {i : Nat} (h : Occ pat s i) :
    i + pat.length ≤ s.length := by
  obtain ⟨u, v, rfl, rfl⟩ := h
  simp only [List.length_append]
  omega

theorem occ_nil {pat : List Char} (hp : pat ≠ []) (i : Nat) : ¬ Occ pat [] i := by
  intro h
  have h2 := occ_length h
  simp only [List.length_nil] at h2
  exact hp (List.length_eq_zero.mp (by omega))

theorem occ_mono {pat s s' : List Char} {i : Nat} (hss : IsPref s s') (h : Occ pat s i) :
    Occ pat s' i := by
  obtain ⟨w, rfl⟩ := hss
  obtain ⟨u, v, rfl, rfl⟩ := h
  exact ⟨u, v ++ w, by simp [List.append_assoc], rfl⟩

theorem occ_append_left {pat y : List Char} {i : Nat} (x : List Char) (h : Occ pat y i) :
    Occ pat (x ++ y) (x.length + i) := by
  obtain ⟨u, v, rfl, rfl⟩ := h
  exact ⟨x ++ u, v, by simp [List.append_assoc], by simp [List.length_append]⟩

theorem occ_in_left {pat x y : List Char} {i : Nat} (h : Occ pat (x ++ y) i)
    (hl : i + pat.length ≤ x.length) : Occ pat x i := by
  rcases occ_iff_drop.mp h with ⟨hd, _⟩
  rw [List.drop_append_eq_append_drop, Nat.sub_eq_zero_of_le (by omega),
    List.drop_zero] at hd
  have hd2 : IsPref pat (x.drop i) := by
    refine isPref_of_append hd ?_
    rw [List.length_drop]
    omega
  exact occ_iff_drop.mpr ⟨hd2, by omega⟩

theorem occ_in_right {pat x y : List Char} {i : Nat} (h : Occ pat (x ++ y) i)
    (hl : x.length ≤ i) : Occ pat y (i - x.length) := by
  rcases occ_iff_drop.mp h with ⟨hd, hle⟩
  rw [List.drop_append_eq_append_drop, List.drop_eq_nil_of_le hl,
    List.nil_append] at hd
  refine occ_iff_drop.mpr ⟨hd, ?_⟩
  simp only [List.length_append] at hle
  omega

theorem occ_sub {pat x s : List Char} {i : Nat} (hpx : IsPref pat x)
    (h : Occ x s i) : Occ pat s i := by
  obtain ⟨r, rfl⟩ := hpx
  obtain ⟨u, v, rfl, rfl⟩ := h
  exact ⟨u, r ++ v, by simp [List.append_assoc], rfl⟩

theorem occ_char {pat s : List Char} {i j : Nat} (h : Occ pat s i)
    (hj : j < pat.length) : s[i + j]? = pat[j]? := by
  obtain ⟨u, v, rfl, rfl⟩ := h
  rw [List.append_assoc, List.getElem?_append_right (by omega),
    Nat.add_sub_cancel_left, List.getElem?_append_left hj]

theorem occ_char_mem {pat s : List Char} {i j : Nat} {a : Char} (h : Occ pat s i)
    (hj : j < pat.length) (ha : s[i + j]? = some a) : a ∈ pat := by
  rw [occ_char h hj] at ha
  rcases List.getElem?_eq_some.mp ha with ⟨hlt, hget⟩
  rw [← hget]
  exact List.getElem_mem hlt

theorem occ_overlap {pat s : List Char} {p q : Nat} (h1 : Occ pat s p)
    (h2 : Occ pat s q) (hpq : p < q) (hq : q < p + pat.length) :
    IsPref (pat.drop (q - p)) pat := by
  rcases occ_iff_drop.mp h1 with ⟨⟨t1, ht1⟩, _⟩
  rcases occ_iff_drop.mp h2 with ⟨hd2, _⟩
  have e1 : s.drop q = (s.drop p).drop (q - p) := by
    rw [List.drop_drop]
    congr 1
    omega
  have h0 : q - p - pat.length = 0 := by omega
  have hq2 : s.drop q = pat.drop (q - p) ++ t1 := by
    rw [e1, ht1, List.drop_append_eq_append_drop, h0, List.drop_zero]
  rw [hq2] at hd2
  refine isPref_of_both ⟨t1, rfl⟩ hd2 ?_
  rw [List.length_drop]
  omega

theorem unbordered_sep {pat s : List Char} {p q : Nat} (hub : Unbordered pat)
    (h1 : Occ pat s p) (h2 : Occ pat s q) (hlt : p < q) :
    p + pat.length ≤ q := by
  by_contra hc
  push_neg at hc
  exact hub (q - p) (by omega) (by omega) (occ_overlap h1 h2 hlt hc)

/-! Facts about `spanToOcc`, `occCount`, `rpartAfter`, `findIdx`, `findLastIdx`. -/

theorem spanToOcc_cat (pat : List Char) : ∀ s : List Char,
    (spanToOcc pat s).1 ++ (spanToOcc pat s).2 = s := by
  intro s
  induction s with
  | nil => rfl
  | cons c t ih =>
    unfold spanToOcc
    by_cases h : pat.isPrefixOf (c :: t) = true
    · simp [h]
    · simp [h, ih]

theorem spanToOcc_snd_isPref (pat : List Char) : ∀ s : List Char,
    (spanToOcc pat s).2 ≠ [] → IsPref pat (spanToOcc pat s).2 := by
  intro s
  induction s with
  | nil => intro h; exact absurd rfl h
  | cons c t ih =>
    intro hne
    unfold spanToOcc at hne ⊢
    by_cases h : pat.isPrefixOf (c :: t) = true
    · simp only [h, if_true]
      exact (isPref_iff pat (c :: t)).mp h
    · simp only [h, if_false, Bool.false_eq_true] at hne ⊢
      exact ih hne

theorem spanToOcc_min {pat : List Char} (hp : pat ≠ []) : ∀ (s : List Char) (i : Nat),
    Occ pat s i → (spanToOcc pat s).1.length ≤ i := by
  intro s
  induction s with
  | nil => intro i h; exact absurd h (occ_nil hp i)
  | cons c t ih =>
    intro i h
    unfold spanToOcc
    by_cases hb : pat.isPrefixOf (c :: t) = true
    · simp [hb]
    · simp only [hb, if_false, Bool.false_eq_true]
      cases i with
      | zero =>
        exact absurd ((isPref_iff pat (c :: t)).mpr (occ_zero.mp h)) hb
      | succ j =>
        have := ih j (occ_cons.mp h)
        simp only [List.length_cons]
        omega

theorem spanToOcc_fst_no_occ {pat : List Char} (hp : pat ≠ []) (s : List Char)
    (i : Nat) : ¬ Occ pat (spanToOcc pat s).1 i := by
  intro h
  have h1 : Occ pat s i :=
    occ_mono ⟨(spanToOcc pat s).2, (spanToOcc_cat pat s).symm⟩ h
  have h2 := spanToOcc_min hp s i h1
  have h3 := occ_length h
  have h4 : 0 < pat.length := List.length_pos.mpr hp
  omega

theorem spanToOcc_snd_nil_iff {pat : List Char} (hp : pat ≠ []) (s : List Char) :
    (spanToOcc pat s).2 = [] ↔ ∀ i, ¬ Occ pat s i := by
  constructor
  · intro hnil
    induction s with
    | nil => exact occ_nil hp
    | cons c t ih =>
      unfold spanToOcc at hnil
      by_cases hb : pat.isPrefixOf (c :: t) = true
      · simp [hb] at hnil
      · simp only [hb, if_false, Bool.false_eq_true] at hnil
        intro i h
        cases i with
        | zero => exact hb ((isPref_iff pat (c :: t)).mpr (occ_zero.mp h))
        | succ j => exact ih hnil j (occ_cons.mp h)
  · intro h
    by_contra hne
    have hpref := spanToOcc_snd_isPref pat s hne
    have h0 : Occ pat (spanToOcc pat s).2 0 := occ_zero.mpr hpref
    have h1 := occ_append_left (spanToOcc pat s).1 h0
    rw [spanToOcc_cat pat s] at h1
    exact h ((spanToOcc pat s).1.length + 0) h1

theorem spanToOcc_of_no_occ {pat : List Char} (hp : pat ≠ []) (s : List Char)
    (h : ∀ i, ¬ Occ pat s i) : spanToOcc pat s = (s, []) := by
  have h2 : (spanToOcc pat s).2 = [] := (spanToOcc_snd_nil_iff hp s).mpr h
  have h1 := spanToOcc_cat pat s
  rw [h2, List.append_nil] at h1
  exact Prod.ext h1 h2

theorem spanToOcc_exact {pat P R : List Char} (hp : pat ≠ []) (hub : Unbordered pat)
    (hP : ∀ i, ¬ Occ pat P i) : spanToOcc pat (P ++ pat ++ R) = (P, pat ++ R) := by
  have hocc : Occ pat (P ++ pat ++ R) P.length := ⟨P, R, rfl, rfl⟩
  have hsnd : (spanToOcc pat (P ++ pat ++ R)).2 ≠ [] := by
    intro h0
    exact (spanToOcc_snd_nil_iff hp _).mp h0 P.length hocc
  have hcat := spanToOcc_cat pat (P ++ pat ++ R)
  have hmin := spanToOcc_min hp _ P.length hocc
  have hpref := spanToOcc_snd_isPref pat _ hsnd
  have hocc2 : Occ pat (P ++ pat ++ R) (spanToOcc pat (P ++ pat ++ R)).1.length := by
    have h0 : Occ pat (spanToOcc pat (P ++ pat ++ R)).2 0 := occ_zero.mpr hpref
    have h1 := occ_append_left (spanToOcc pat (P ++ pat ++ R)).1 h0
    rw [hcat] at h1
    simpa using h1
  have heq : (spanToOcc pat (P ++ pat ++ R)).1.length = P.length := by
    rcases Nat.lt_or_ge (spanToOcc pat (P ++ pat ++ R)).1.length P.length with hlt | hge
    · exfalso
      have hsep := unbordered_sep hub hocc2 hocc hlt
      have hocc3 : Occ pat (P ++ (pat ++ R)) (spanToOcc pat (P ++ pat ++ R)).1.length := by
        rw [← List.append_assoc]
        exact hocc2
      have hin : Occ pat P (spanToOcc pat (P ++ pat ++ R)).1.length :=
        occ_in_left hocc3 (by omega)
      exact hP _ hin
    · omega
  have hfst : (spanToOcc pat (P ++ pat ++ R)).1 = P := by
    have h1 : IsPref (spanToOcc pat (P ++ pat ++ R)).1 (P ++ pat ++ R) := ⟨_, hcat.symm⟩
    have h2 := take_of_isPref h1
    rw [heq] at h2
    have h3 : (P ++ pat ++ R).take P.length = P := by
      rw [List.append_assoc]
      exact List.take_left P (pat ++ R)
    rw [h3] at h2
    exact h2.symm
  have hsnd2 : (spanToOcc pat (P ++ pat ++ R)).2 = pat ++ R := by
    have h5 : P ++ (spanToOcc pat (P ++ pat ++ R)).2 = P ++ (pat ++ R) :=
      calc P ++ (spanToOcc pat (P ++ pat ++ R)).2
          = (spanToOcc pat (P ++ pat ++ R)).1 ++ (spanToOcc pat (P ++ pat ++ R)).2 := by
            rw [hfst]
        _ = P ++ pat ++ R := hcat
        _ = P ++ (pat ++ R) := List.append_assoc P pat R
    exact List.append_cancel_left h5
  exact Prod.ext hfst hsnd2

theorem occCount_cons (pat : List Char) (c : Char) (t : List Char) :
    occCount pat (c :: t) = (if pat.isPrefixOf (c :: t) then 1 else 0) + occCount pat t :=
  rfl

theorem occCount_eq_zero {pat : List Char} (hp : pat ≠ []) : ∀ {s : List Char},
    occCount pat s = 0 ↔ ∀ i, ¬ Occ pat s i := by
  intro s
  induction s with
  | nil => exact iff_of_true rfl (occ_nil hp)
  | cons c t ih =>
    rw [occCount_cons]
    by_cases hb : pat.isPrefixOf (c :: t) = true
    · refine iff_of_false ?_ ?_
      · simp [hb]
      · intro h
        exact h 0 (occ_zero.mpr ((isPref_iff pat (c :: t)).mp hb))
    · simp only [hb, if_false, Bool.false_eq_true, Nat.zero_add]
      rw [ih]
      constructor
      · intro h i hcc
        cases i with
        | zero => exact hb ((isPref_iff pat (c :: t)).mpr (occ_zero.mp hcc))
        | succ j => exact h j (occ_cons.mp hcc)
      · intro h i hcc
        exact h (i + 1) (occ_cons.mpr hcc)

theorem occCount_drop {pat : List Char} : ∀ (j : Nat) (s : List Char),
    (∀ i, i < j → ¬ Occ pat s i) → occCount pat s = occCount pat (s.drop j) := by
  intro j
  induction j with
  | zero => intro s _; rw [List.drop_zero]
  | succ j ih =>
    intro s h
    cases s with
    | nil => rfl
    | cons c t =>
      have h0 : ¬ Occ pat (c :: t) 0 := h 0 (Nat.succ_pos j)
      have hne : ¬ pat.isPrefixOf (c :: t) = true := fun hb =>
        h0 (occ_zero.mpr ((isPref_iff pat (c :: t)).mp hb))
      rw [occCount_cons, if_neg hne, Nat.zero_add, List.drop_succ_cons]
      exact ih t (fun i hi hcc => h (i + 1) (by omega) (occ_cons.mpr hcc))

theorem occCount_one {pat s : List Char} (hp : pat ≠ []) (h0 : Occ pat s 0)
    (hone : ∀ i, Occ pat s i → i = 0) : occCount pat s = 1 := by
  cases s with
  | nil => exact absurd h0 (occ_nil hp 0)
  | cons c t =>
    rw [occCount_cons, if_pos ((isPref_iff pat (c :: t)).mpr (occ_zero.mp h0))]
    have ht : occCount pat t = 0 := (occCount_eq_zero hp).mpr (fun i hi => by
      have := hone (i + 1) (occ_cons.mpr hi)
      omega)
    rw [ht]

theorem rpartAfter_isPref {pat : List Char} : ∀ {s r : List Char},
    rpartAfter pat s = some r → IsPref pat r := by
  intro s
  induction s with
  | nil => intro r h; cases h
  | cons c t ih =>
    intro r h
    unfold rpartAfter at h
    cases hrec : rpartAfter pat t with
    | some r' =>
      rw [hrec] at h
      cases h
      exact ih hrec
    | none =>
      rw [hrec] at h
      by_cases hb : pat.isPrefixOf (c :: t) = true
      · simp only [hb, if_true] at h
        cases h
        exact (isPref_iff pat (c :: t)).mp hb
      · simp [hb] at h

theorem rpartAfter_none {pat : List Char} : ∀ {s : List Char},
    (∀ i, ¬ Occ pat s i) → rpartAfter pat s = none := by
  intro s
  induction s with
  | nil => intro _; rfl
  | cons c t ih =>
    intro h
    have hrec : rpartAfter pat t = none :=
      ih (fun i hi => h (i + 1) (occ_cons.mpr hi))
    have hb : ¬ pat.isPrefixOf (c :: t) = true := fun hb =>
      h 0 (occ_zero.mpr ((isPref_iff pat (c :: t)).mp hb))
    unfold rpartAfter
    rw [hrec, if_neg hb]

theorem findIdx_none_iff (pat : List Char) : ∀ s : List Char,
    findIdx pat s = none ↔ (spanToOcc pat s).2 = [] := by
  intro s
  induction s with
  | nil => exact iff_of_true rfl rfl
  | cons c t ih =>
    unfold findIdx spanToOcc
    by_cases hb : pat.isPrefixOf (c :: t) = true
    · simp [hb]
    · simp only [hb, if_false, Bool.false_eq_true]
      rw [Option.map_eq_none']
      exact ih

theorem findIdx_some (pat : List Char) : ∀ {s : List Char} {i : Nat},
    findIdx pat s = some i →
      (spanToOcc pat s).1 = s.take i ∧ (spanToOcc pat s).2 = s.drop i := by
  intro s
  induction s with
  | nil => intro i h; cases h
  | cons c t ih =>
    intro i h
    unfold findIdx at h
    unfold spanToOcc
    by_cases hb : pat.isPrefixOf (c :: t) = true
    · rw [if_pos hb] at h
      cases h
      simp [hb]
    · rw [if_neg hb] at h
      rcases Option.map_eq_some'.mp h with ⟨j, hj, rfl⟩
      rcases ih hj with ⟨h1, h2⟩
      simp only [hb, if_false, Bool.false_eq_true]
      rw [List.take_succ_cons, List.drop_succ_cons]
      exact ⟨by rw [h1], h2⟩

theorem rpartAfter_findLastIdx (pat : List Char) : ∀ s : List Char,
    rpartAfter pat s = (findLastIdx pat s).map (fun j => s.drop j) := by
  intro s
  induction s with
  | nil => rfl
  | cons c t ih =>
    unfold rpartAfter findLastIdx
    cases hfl : findLastIdx pat t with
    | some n =>
      rw [hfl] at ih
      rw [ih]
      simp [List.drop_succ_cons]
    | none =>
      rw [hfl] at ih
      rw [ih]
      by_cases hb : pat.isPrefixOf (c :: t) = true
      · simp [hb]
      · simp [hb]

/-! Facts about `strip`. -/

theorem dw_head_false {p : Char → Bool} : ∀ {l : List Char} {a : Char} {t : List Char},
    List.dropWhile p l = a :: t → p a = false := by
  intro l
  induction l with
  | nil => intro a t h; cases h
  | cons b l' ih =>
    intro a t h
    rw [List.dropWhile_cons] at h
    by_cases hb : p b = true
    · rw [if_pos hb] at h
      exact ih h
    · rw [if_neg hb] at h
      cases h
      exact Bool.eq_false_iff.mpr hb

theorem dw_idem (p : Char → Bool) (l : List Char) :
    List.dropWhile p (List.dropWhile p l) = List.dropWhile p l := by
  cases h : List.dropWhile p l with
  | nil => rfl
  | cons a t =>
    rw [List.dropWhile_cons, if_neg]
    rw [dw_head_false h]
    simp

theorem dw_app_allsat {p : Char → Bool} {w : List Char} (x : List Char)
    (hw : ∀ a ∈ w, p a = true) :
    List.dropWhile p (w ++ x) = List.dropWhile p x := by
  rw [List.dropWhile_append, if_pos]
  rw [List.isEmpty_eq_true]
  exact List.dropWhile_eq_nil_iff.mpr hw

theorem dw_app_ne {p : Char → Bool} {x : List Char} (w : List Char)
    (hx : List.dropWhile p x ≠ []) :
    List.dropWhile p (x ++ w) = List.dropWhile p x ++ w := by
  rw [List.dropWhile_append, if_neg]
  intro h
  exact hx (List.isEmpty_eq_true.mp h)

theorem stripR_isPref (y : List Char) : IsPref (stripR y) y := by
  refine ⟨(List.takeWhile ws y.reverse).reverse, ?_⟩
  have h := List.takeWhile_append_dropWhile ws y.reverse
  calc y = y.reverse.reverse := (List.reverse_reverse y).symm
    _ = (List.takeWhile ws y.reverse ++ List.dropWhile ws y.reverse).reverse := by rw [h]
    _ = stripR y ++ (List.takeWhile ws y.reverse).reverse := by
        rw [List.reverse_append]; rfl

theorem stripL_cat (s : List Char) : s = List.takeWhile ws s ++ stripL s :=
  (List.takeWhile_append_dropWhile ws s).symm

theorem stripR_app_allsat {w : List Char} (y : List Char) (hw : ∀ a ∈ w, ws a = true) :
    stripR (y ++ w) = stripR y := by
  unfold stripR
  rw [List.reverse_append, dw_app_allsat y.reverse]
  intro a ha
  exact hw a (List.mem_reverse.mp ha)

theorem stripR_idem (y : List Char) : stripR (stripR y) = stripR y := by
  unfold stripR
  rw [List.reverse_reverse, dw_idem]

theorem strip_app_left {w : List Char} (x : List Char) (hw : ∀ a ∈ w, ws a = true) :
    strip (w ++ x) = strip x := by
  unfold strip stripL
  rw [dw_app_allsat x hw]

theorem strip_app_right {w : List Char} (x : List Char) (hw : ∀ a ∈ w, ws a = true) :
    strip (x ++ w) = strip x := by
  unfold strip
  by_cases hx : stripL x = []
  · have hall : ∀ a ∈ x, ws a = true := List.dropWhile_eq_nil_iff.mp hx
    have hall2 : ∀ a ∈ x ++ w, ws a = true := by
      intro a ha
      rcases List.mem_append.mp ha with h | h
      · exact hall a h
      · exact hw a h
    have h2 : stripL (x ++ w) = [] := List.dropWhile_eq_nil_iff.mpr hall2
    rw [h2, hx]
  · have h2 : stripL (x ++ w) = stripL x ++ w := dw_app_ne w hx
    rw [h2, stripR_app_allsat (stripL x) hw]

theorem strip_idem (s : List Char) : strip (strip s) = strip s := by
  unfold strip
  have hy : stripL (stripL s) = stripL s := dw_idem ws s
  have hLR : stripL (stripR (stripL s)) = stripR (stripL s) := by
    cases hsr : stripR (stripL s) with
    | nil => rfl
    | cons a z =>
      rcases stripR_isPref (stripL s) with ⟨zz, hzz⟩
      rw [hsr] at hzz
      cases hls : stripL s with
      | nil => rw [hls] at hzz; cases hzz
      | cons b t =>
        rw [hls, List.cons_append] at hzz
        injection hzz with h1 h2
        have hb : ws b = false := dw_head_false hls
        unfold stripL
        rw [List.dropWhile_cons, if_neg]
        rw [← h1, hb]
        simp
  rw [hLR, stripR_idem]

theorem strip_isPref_nonws {pat g : List Char} (hp : pat ≠ [])
    (hnw : ∀ a ∈ pat, ws a = false) (h : IsPref pat g) :
    IsPref pat (strip g) ∧ strip g ≠ [] := by
  obtain ⟨t, rfl⟩ := h
  cases hpat : pat with
  | nil => exact absurd hpat hp
  | cons a pr =>
    subst hpat
    have ha : ws a = false := hnw a (List.mem_cons_self a pr)
    have hsl : stripL ((a :: pr) ++ t) = (a :: pr) ++ t := by
      unfold stripL
      rw [List.cons_append, List.dropWhile_cons, if_neg (by rw [ha]; simp)]
    have hrevne : (a :: pr).reverse ≠ [] := by
      simp
    have hmain : IsPref (a :: pr) (stripR ((a :: pr) ++ t)) ∧
        stripR ((a :: pr) ++ t) ≠ [] := by
      unfold stripR
      rw [List.reverse_append]
      by_cases hdt : List.dropWhile ws t.reverse = []
      · have hallt : ∀ x ∈ t.reverse, ws x = true := List.dropWhile_eq_nil_iff.mp hdt
        rw [dw_app_allsat (a :: pr).reverse hallt]
        have hrev : List.dropWhile ws (a :: pr).reverse = (a :: pr).reverse := by
          cases hr : (a :: pr).reverse with
          | nil => exact absurd hr hrevne
          | cons b z =>
            have hbmem : b ∈ a :: pr := by
              rw [← List.mem_reverse, hr]
              exact List.mem_cons_self b z
            rw [List.dropWhile_cons, if_neg (by rw [hnw b hbmem]; simp)]
        rw [hrev, List.reverse_reverse]
        exact ⟨isPref_refl (a :: pr), by simp⟩
      · rw [dw_app_ne (a :: pr).reverse hdt, List.reverse_append, List.reverse_reverse]
        constructor
        · exact ⟨(List.dropWhile ws t.reverse).reverse, rfl⟩
        · intro hcc
          rcases List.append_eq_nil.mp hcc with ⟨h1, _⟩
          cases h1
    unfold strip
    rw [hsl]
    exact hmain

theorem occ_strip {pat s : List Char} {i : Nat} (h : Occ pat (strip s) i) :
    ∃ j, Occ pat s j := by
  have h1 : Occ pat (stripL s) i := occ_mono (stripR_isPref (stripL s)) h
  have h2 := occ_append_left (List.takeWhile ws s) h1
  rw [← stripL_cat s] at h2
  exact ⟨_, h2⟩

theorem no_occ_strip {pat s : List Char} (h : ∀ j, ¬ Occ pat s j) (i : Nat) :
    ¬ Occ pat (strip s) i := by
  intro hcc
  rcases occ_strip hcc with ⟨j, hj⟩
  exact h j hj

/-! Structure of `splitMarks`. -/

theorem catAll_nil : catAll [] = [] := rfl

theorem catAll_cons (g : List Char) (gs : List (List Char)) :
    catAll (g :: gs) = g ++ catAll gs := rfl

theorem consHead_cat (c : Char) (r : List (List Char)) :
    catAll (consHead c r) = c :: catAll r := by
  cases r with
  | nil => rfl
  | cons g gs => rfl

theorem consHead_ne_nil (c : Char) (r : List (List Char)) : consHead c r ≠ [] := by
  cases r <;> simp [consHead]

theorem consHead_length {r : List (List Char)} (c : Char) (hr : r ≠ []) :
    (consHead c r).length = r.length := by
  cases r with
  | nil => exact absurd rfl hr
  | cons g gs => rfl

theorem splitMarks_nil (pat : List Char) : splitMarks pat [] = [[]] := rfl

theorem splitMarks_cons_eq (pat : List Char) (c : Char) (t : List Char) :
    splitMarks pat (c :: t) =
      if pat.isPrefixOf (c :: t) = true then [] :: consHead c (splitMarks pat t)
      else consHead c (splitMarks pat t) := rfl

theorem splitMarks_ne_nil (pat : List Char) (s : List Char) : splitMarks pat s ≠ [] := by
  cases s with
  | nil => simp [splitMarks]
  | cons c t =>
    unfold splitMarks
    by_cases hb : pat.isPrefixOf (c :: t) = true
    · simp [hb]
    · simp only [hb, if_false, Bool.false_eq_true]
      exact consHead_ne_nil c _

theorem splitMarks_master {pat : List Char} (hp : pat ≠ []) (hub : Unbordered pat) :
    ∀ s : List Char, ∃ g gs, splitMarks pat s = g :: gs ∧
      s = g ++ catAll gs ∧
      (∀ i, ¬ Occ pat g i) ∧
      (pat.isPrefixOf s = true → g = []) ∧
      (∀ g' ∈ gs, IsPref pat g' ∧ ∀ i, Occ pat g' i → i = 0) := by
  intro s
  induction s with
  | nil =>
    exact ⟨[], [], rfl, rfl, occ_nil hp, fun _ => rfl, by simp⟩
  | cons c t ih =>
    obtain ⟨g, gs, hsm, hcat, hgno, _, hseg⟩ := ih
    by_cases hb : pat.isPrefixOf (c :: t) = true
    · have hbp : IsPref pat (c :: t) := (isPref_iff pat (c :: t)).mp hb
      have hct : c :: t = (c :: g) ++ catAll gs := by
        rw [List.cons_append, ← hcat]
      have hcg : IsPref pat (c :: g) := by
        rcases le_or_lt pat.length (g.length + 1) with hle | hgt
        · have hbig : IsPref pat ((c :: g) ++ catAll gs) := by
            rw [← hct]; exact hbp
          exact isPref_of_append hbig (by simpa using hle)
        · exfalso
          cases gs with
          | nil =>
            have := isPref_length hbp
            rw [hct] at this
            simp only [catAll_nil, List.append_nil, List.length_cons] at this
            omega
          | cons g2 gs2 =>
            have hg2 := hseg g2 (List.mem_cons_self g2 gs2)
            have h0 : Occ pat g2 0 := occ_zero.mpr hg2.1
            have h0m : Occ pat (g2 ++ catAll gs2) 0 :=
              occ_mono ⟨catAll gs2, rfl⟩ h0
            have h1 : Occ pat ((c :: g) ++ (g2 ++ catAll gs2)) ((c :: g).length + 0) :=
              occ_append_left (c :: g) h0m
            have h1' : Occ pat (c :: t) (g.length + 1) := by
              rw [hct, catAll_cons]
              simpa using h1
            have h00 : Occ pat (c :: t) 0 := occ_zero.mpr hbp
            have := unbordered_sep hub h00 h1' (by omega)
            omega
      refine ⟨[], (c :: g) :: gs, ?_, ?_, occ_nil hp, fun _ => rfl, ?_⟩
      · rw [splitMarks_cons_eq, if_pos hb, hsm]
        rfl
      · rw [List.nil_append, catAll_cons]
        exact hct
      · intro g' hg'
        rcases List.mem_cons.mp hg' with rfl | hmem
        · refine ⟨hcg, ?_⟩
          intro i hi
          cases i with
          | zero => rfl
          | succ j => exact absurd (occ_cons.mp hi) (hgno j)
        · exact hseg g' hmem
    · refine ⟨c :: g, gs, ?_, ?_, ?_, fun hcc => absurd hcc hb, hseg⟩
      · rw [splitMarks_cons_eq, if_neg hb, hsm]
        rfl
      · rw [List.cons_append, ← hcat]
      · intro i hi
        cases i with
        | zero =>
          have h1 : IsPref pat (c :: g) := occ_zero.mp hi
          have h2 : IsPref pat (c :: t) := by
            have := isPref_append_right (catAll gs) h1
            rw [List.cons_append, ← hcat] at this
            exact this
          exact hb ((isPref_iff pat (c :: t)).mpr h2)
        | succ j => exact absurd (occ_cons.mp hi) (hgno j)

theorem splitMarks_length (pat : List Char) : ∀ s : List Char,
    (splitMarks pat s).length = occCount pat s + 1 := by
  intro s
  induction s with
  | nil => rfl
  | cons c t ih =>
    rw [splitMarks_cons_eq, occCount_cons]
    by_cases hb : pat.isPrefixOf (c :: t) = true
    · rw [if_pos hb, if_pos hb]
      simp only [List.length_cons, consHead_length c (splitMarks_ne_nil pat t), ih]
      omega
    · rw [if_neg hb, if_neg hb]
      rw [consHead_length c (splitMarks_ne_nil pat t), ih]
      omega

theorem splitMarks_no_occ {pat : List Char} : ∀ {s : List Char},
    (∀ i, ¬ Occ pat s i) → splitMarks pat s = [s] := by
  intro s
  induction s with
  | nil => intro _; rfl
  | cons c t ih =>
    intro h
    have hb : ¬ pat.isPrefixOf (c :: t) = true := fun hb =>
      h 0 (occ_zero.mpr ((isPref_iff pat (c :: t)).mp hb))
    unfold splitMarks
    rw [if_neg hb, ih (fun i hi => h (i + 1) (occ_cons.mpr hi))]
    rfl

theorem splitMarks_app {pat : List Char} (hp : pat ≠ []) (hub : Unbordered pat)
    {y : List Char} (hy : y = [] ∨ IsPref pat y) :
    ∀ x : List Char, x ≠ [] → (∀ i, ¬ Occ pat x i) →
      splitMarks pat (x ++ y) = x :: (splitMarks pat y).tail := by
  intro x
  induction x with
  | nil => intro hne _; exact absurd rfl hne
  | cons c x' ih =>
    intro _ hx
    have hb : ¬ pat.isPrefixOf (c :: x' ++ y) = true := by
      intro hb
      have h0 : Occ pat ((c :: x') ++ y) 0 :=
        occ_zero.mpr ((isPref_iff pat ((c :: x') ++ y)).mp hb)
      rcases hy with rfl | ⟨ty, rfl⟩
      · rw [List.append_nil] at h0
        exact hx 0 h0
      · have hyo : Occ pat (pat ++ ty) 0 := occ_zero.mpr ⟨ty, rfl⟩
        have hyo2 : Occ pat ((c :: x') ++ (pat ++ ty)) ((c :: x').length + 0) :=
          occ_append_left (c :: x') hyo
        rw [Nat.add_zero] at hyo2
        have hsep := unbordered_sep hub h0 hyo2 (by simp)
        rw [Nat.zero_add] at hsep
        exact hx 0 (occ_in_left h0 (by simpa using hsep))
    show splitMarks pat (c :: (x' ++ y)) = (c :: x') :: (splitMarks pat y).tail
    rw [splitMarks_cons_eq, if_neg (by simpa using hb)]
    cases hx' : x' with
    | nil =>
      subst hx'
      rw [List.nil_append]
      rcases hy with rfl | ⟨ty, hty⟩
      · rw [splitMarks_nil]
        rfl
      · subst hty
        have hbY : pat.isPrefixOf (pat ++ ty) = true :=
          (isPref_iff pat (pat ++ ty)).mpr ⟨ty, rfl⟩
        obtain ⟨g, gs, hsm, _, _, hghead, _⟩ := splitMarks_master hp hub (pat ++ ty)
        rw [hsm, hghead hbY]
        rfl
    | cons c' x'' =>
      rw [← hx']
      rw [ih (by rw [hx']; simp) (fun i hi => hx (i + 1) (occ_cons.mpr hi))]
      rfl

/-! Occurrences across the `"\n\n"` glue and across joined sections. -/

theorem glue_char (x y : List Char) (k : Nat) (hk : k < 2) :
    (x ++ nl2 ++ y)[x.length + k]? = some '\n' := by
  have h1 : x.length + k < (x ++ nl2).length := by
    simp only [List.length_append]
    have h2 : nl2.length = 2 := rfl
    omega
  rw [List.getElem?_append_left h1, List.getElem?_append_right (by omega)]
  have h2 : x.length + k - x.length = k := by omega
  rw [h2]
  cases k with
  | zero => rfl
  | succ k' =>
    cases k' with
    | zero => rfl
    | succ k'' => exact absurd hk (by omega)

theorem occ_glue {pat x y : List Char} {i : Nat} (hp : pat ≠ [])
    (hnl : ∀ a ∈ pat, a ≠ '\n') (h : Occ pat (x ++ nl2 ++ y) i) :
    Occ pat x i ∨ ∃ j, i = x.length + 2 + j ∧ Occ pat y j := by
  have h' : Occ pat (x ++ (nl2 ++ y)) i := by
    rw [← List.append_assoc]; exact h
  rcases le_or_lt (i + pat.length) x.length with hle | hgt
  · exact Or.inl (occ_in_left h' hle)
  · rcases le_or_lt (x.length + 2) i with hge | hlt2
    · right
      have hlen : (x ++ nl2).length = x.length + 2 := by
        simp only [List.length_append]
        rfl
      have h2 := occ_in_right h (by omega)
      rw [hlen] at h2
      exact ⟨i - (x.length + 2), by omega, h2⟩
    · exfalso
      rcases le_or_lt i x.length with hi | hi
      · have hj : x.length - i < pat.length := by omega
        have hchar := glue_char x y 0 (by omega)
        have hip : i + (x.length - i) = x.length + 0 := by omega
        rw [← hip] at hchar
        exact hnl '\n' (occ_char_mem h hj hchar) rfl
      · have hp0 : 0 < pat.length := List.length_pos.mpr hp
        have hchar := glue_char x y 1 (by omega)
        have hip : i + 0 = x.length + 1 := by omega
        rw [← hip] at hchar
        exact hnl '\n' (occ_char_mem h hp0 hchar) rfl

theorem splitMarks_head {pat : List Char} (hp : pat ≠ []) (hub : Unbordered pat)
    (hnl : ∀ a ∈ pat, a ≠ '\n') {s : List Char} (hs : IsPref pat s)
    (hone : ∀ i, Occ pat s i → i = 0) {Y : List Char} (hY : Y = [] ∨ IsPref pat Y) :
    splitMarks pat (s ++ nl2 ++ Y) = [] :: (s ++ nl2) :: (splitMarks pat Y).tail := by
  cases hsc : s with
  | nil =>
    exfalso
    apply hp
    have hle := isPref_length hs
    rw [hsc] at hle
    simp only [List.length_nil, Nat.le_zero] at hle
    exact List.length_eq_zero.mp hle
  | cons c s0 =>
    subst hsc
    have hb : IsPref pat ((c :: s0) ++ nl2 ++ Y) :=
      isPref_append_right Y (isPref_append_right nl2 hs)
    have hxne : s0 ++ nl2 ≠ [] := by simp [nl2]
    have hxno : ∀ i, ¬ Occ pat (s0 ++ nl2) i := by
      intro i hi
      have hi' : Occ pat (s0 ++ nl2 ++ []) i := by
        rw [List.append_nil]; exact hi
      rcases occ_glue hp hnl hi' with hL | ⟨j, _, hR⟩
      · have := hone (i + 1) (occ_cons.mpr hL)
        omega
      · exact occ_nil hp j hR
    have happ := splitMarks_app hp hub hY (s0 ++ nl2) hxne hxno
    show splitMarks pat (c :: ((s0 ++ nl2) ++ Y)) =
      [] :: ((c :: s0) ++ nl2) :: (splitMarks pat Y).tail
    rw [splitMarks_cons_eq, if_pos (by simpa using (isPref_iff pat _).mpr hb), happ]
    rfl

theorem splitMarks_joinNl {pat : List Char} (hp : pat ≠ []) (hub : Unbordered pat)
    (hnl : ∀ a ∈ pat, a ≠ '\n') :
    ∀ secs : List (List Char), secs ≠ [] →
      (∀ sec ∈ secs, IsPref pat sec ∧ ∀ i, Occ pat sec i → i = 0) →
      splitMarks pat (joinNl secs ++ nl2) = [] :: secs.map (fun sec => sec ++ nl2) := by
  intro secs
  induction secs with
  | nil => intro h _; exact absurd rfl h
  | cons s rest ih =>
    intro _ hseg
    have hss := hseg s (List.mem_cons_self s rest)
    cases rest with
    | nil =>
      have hstep := splitMarks_head hp hub hnl hss.1 hss.2 (Or.inl rfl)
      rw [List.append_nil] at hstep
      show splitMarks pat (s ++ nl2) = [] :: [s ++ nl2]
      rw [hstep, splitMarks_nil]
      rfl
    | cons s2 rest2 =>
      have hY : IsPref pat (joinNl (s2 :: rest2) ++ nl2) := by
        have h2 := (hseg s2 (by simp)).1
        cases rest2 with
        | nil => exact isPref_append_right nl2 h2
        | cons s3 r3 =>
          show IsPref pat ((s2 ++ nl2 ++ joinNl (s3 :: r3)) ++ nl2)
          exact isPref_append_right nl2
            (isPref_append_right (joinNl (s3 :: r3)) (isPref_append_right nl2 h2))
      have hstep := splitMarks_head hp hub hnl hss.1 hss.2 (Or.inr hY)
      have hihr := ih (by simp) (fun sec hm => hseg sec (List.mem_cons_of_mem s hm))
      show splitMarks pat ((s ++ nl2 ++ joinNl (s2 :: rest2)) ++ nl2) =
        [] :: (s ++ nl2) :: (s2 :: rest2).map (fun sec => sec ++ nl2)
      rw [List.append_assoc (s ++ nl2) (joinNl (s2 :: rest2)) nl2, hstep, hihr]
      rfl

theorem joinNl_no_occ {pat : List Char} (hp : pat ≠ [])
    (hnl : ∀ a ∈ pat, a ≠ '\n') :
    ∀ secs : List (List Char), (∀ sec ∈ secs, ∀ i, ¬ Occ pat sec i) →
      ∀ i, ¬ Occ pat (joinNl secs) i := by
  intro secs
  induction secs with
  | nil => intro _ i; exact occ_nil hp i
  | cons s rest ih =>
    intro h i hi
    cases rest with
    | nil => exact h s (by simp) i hi
    | cons s2 r2 =>
      have hi' : Occ pat (s ++ nl2 ++ joinNl (s2 :: r2)) i := hi
      rcases occ_glue hp hnl hi' with hL | ⟨j, _, hR⟩
      · exact h s (by simp) i hL
      · exact ih (fun sec hm => h sec (List.mem_cons_of_mem s hm)) j hR

theorem occ_catAll {pat X : List Char} (hp : pat ≠ []) (hhead : pat[0]? = some '\\')
    (hX : IsPref pat X) (hXnb : ∀ m, m < X.length → 0 < m → X[m]? ≠ some '\\') :
    ∀ gs : List (List Char),
      (∀ g ∈ gs, IsPref pat g ∧ ∀ i, Occ pat g i → i = 0) →
      ∀ {p : Nat}, Occ X (catAll gs) p → ∃ g ∈ gs, IsPref X g := by
  have hXne : X ≠ [] := by
    intro he
    have := isPref_length hX
    rw [he] at this
    simp only [List.length_nil, Nat.le_zero] at this
    exact hp (List.length_eq_zero.mp this)
  intro gs
  induction gs with
  | nil =>
    intro _ p h
    exact absurd h (occ_nil hXne p)
  | cons g rest ih =>
    intro hseg p h
    have hgg := hseg g (List.mem_cons_self g rest)
    have h' : Occ X (g ++ catAll rest) p := h
    rcases le_or_lt (p + X.length) g.length with h1 | h1
    · have hXg : Occ X g p := occ_in_left h' h1
      have hpatg : Occ pat g p := occ_sub hX hXg
      have hp0 : p = 0 := hgg.2 p hpatg
      subst hp0
      exact ⟨g, List.mem_cons_self g rest, occ_zero.mp hXg⟩
    · rcases le_or_lt g.length p with h2 | h2
      · have h3 := occ_in_right h' h2
        rcases ih (fun g' hm => hseg g' (List.mem_cons_of_mem g hm)) h3 with
          ⟨g', hm, hpref⟩
        exact ⟨g', List.mem_cons_of_mem g hm, hpref⟩
      · exfalso
        have hj1 : 0 < g.length - p := by omega
        have hj2 : g.length - p < X.length := by omega
        have hchar := occ_char h' hj2
        have hpj : p + (g.length - p) = g.length := by omega
        rw [hpj] at hchar
        have hs0 : (g ++ catAll rest)[g.length]? = (catAll rest)[0]? := by
          rw [List.getElem?_append_right (le_refl g.length), Nat.sub_self]
        cases rest with
        | nil =>
          have hl := occ_length h'
          simp only [catAll_nil, List.append_nil] at hl
          omega
        | cons g2 rest2 =>
          rcases (hseg g2 (by simp)).1 with ⟨t2, ht2⟩
          have h02 : (catAll (g2 :: rest2))[0]? = some '\\' := by
            show (g2 ++ catAll rest2)[0]? = some '\\'
            rw [ht2, List.append_assoc,
              List.getElem?_append_left (List.length_pos.mpr hp)]
            exact hhead
          have hfin : X[g.length - p]? = some '\\' := by
            rw [← hchar, hs0, h02]
          exact hXnb (g.length - p) hj2 hj1 hfin

/-! Facts about the three literal markers. -/

theorem beginMark_ne_nil : beginMark ≠ [] := by decide

theorem endMark_ne_nil : endMark ≠ [] := by decide

theorem secMark_ne_nil : secMark ≠ [] := by decide

theorem beginMark_unbordered : Unbordered beginMark := by decide

theorem endMark_unbordered : Unbordered endMark := by decide

theorem secMark_unbordered : Unbordered secMark := by decide

theorem secMark_nonws : ∀ a ∈ secMark, ws a = false := by decide

theorem secMark_no_nl : ∀ a ∈ secMark, a ≠ '\n' := by decide

theorem endMark_no_nl : ∀ a ∈ endMark, a ≠ '\n' := by decide

theorem secMark_head : secMark[0]? = some '\\' := rfl

theorem nl2_ws : ∀ a ∈ nl2, ws a = true := by decide

/-! Structure of successful `extract` runs. -/

theorem extract_ok_elim {doc intro : List Char} {secs : List (List Char)}
    (h : extract doc = Except.ok (intro, secs)) :
    (spanToOcc beginMark doc).2 ≠ [] ∧
    (spanToOcc secMark (bodyOf doc)).2 ≠ [] ∧
    intro = strip (spanToOcc secMark (bodyOf doc)).1 ∧
    secs = ((splitMarks secMark (spanToOcc secMark (bodyOf doc)).2).map strip).filter
      (fun l => !l.isEmpty) := by
  unfold extract at h
  by_cases h1 : ((spanToOcc beginMark doc).2).isEmpty = true
  · rw [if_pos h1] at h; cases h
  · rw [if_neg h1] at h
    by_cases h2 : ((spanToOcc secMark (bodyOf doc)).2).isEmpty = true
    · rw [if_pos h2] at h; cases h
    · rw [if_neg h2] at h
      injection h with h3
      rw [Prod.mk.injEq] at h3
      refine ⟨fun he => h1 (by rw [he]; rfl), fun he => h2 (by rw [he]; rfl),
        h3.1.symm, h3.2.symm⟩

theorem stripL_of_head_nonws {g : List Char} {a : Char} {t : List Char}
    (hg : g = a :: t) (ha : ws a = false) : stripL g = g := by
  subst hg
  unfold stripL
  rw [List.dropWhile_cons, if_neg]
  rw [ha]
  simp

theorem strip_isPref_of_secMark {g : List Char} (h : IsPref secMark g) :
    IsPref (strip g) g := by
  obtain ⟨t, rfl⟩ := h
  have hsl : stripL (secMark ++ t) = secMark ++ t :=
    stripL_of_head_nonws rfl (by decide)
  unfold strip
  rw [hsl]
  exact stripR_isPref (secMark ++ t)

theorem extract_ok_secs {doc intro : List Char} {secs : List (List Char)}
    (h : extract doc = Except.ok (intro, secs)) :
    ∃ gs : List (List Char),
      splitMarks secMark (spanToOcc secMark (bodyOf doc)).2 = [] :: gs ∧
      secs = gs.map strip ∧
      (spanToOcc secMark (bodyOf doc)).2 = catAll gs ∧
      (∀ g ∈ gs, IsPref secMark g ∧ ∀ i, Occ secMark g i → i = 0) := by
  obtain ⟨h1, h2, h3, h4⟩ := extract_ok_elim h
  obtain ⟨g, gs, hsm, hcat, hgno, hghead, hseg⟩ :=
    splitMarks_master secMark_ne_nil secMark_unbordered
      (spanToOcc secMark (bodyOf doc)).2
  have hpref : IsPref secMark (spanToOcc secMark (bodyOf doc)).2 :=
    spanToOcc_snd_isPref secMark _ h2
  have hg0 : g = [] := hghead ((isPref_iff secMark _).mpr hpref)
  subst hg0
  refine ⟨gs, hsm, ?_, by simpa using hcat, hseg⟩
  rw [h4, hsm, List.map_cons]
  have hstripnil : strip ([] : List Char) = [] := rfl
  rw [hstripnil, List.filter_cons]
  simp only [List.isEmpty_nil, Bool.not_true, Bool.false_eq_true, if_false]
  rw [List.filter_eq_self.mpr]
  intro a ha
  rcases List.mem_map.mp ha with ⟨g', hg', rfl⟩
  have hne := (strip_isPref_nonws secMark_ne_nil secMark_nonws (hseg g' hg').1).2
  cases hsg : strip g' with
  | nil => exact absurd hsg hne
  | cons b z => rfl

theorem extract_sec_facts {doc intro : List Char} {secs : List (List Char)}
    (h : extract doc = Except.ok (intro, secs)) :
    ∀ sec ∈ secs, IsPref secMark sec ∧ sec ≠ [] ∧ strip sec = sec ∧
      ∀ i, Occ secMark sec i → i = 0 := by
  obtain ⟨gs, hsm, hmap, hcat, hseg⟩ := extract_ok_secs h
  intro sec hmem
  rw [hmap] at hmem
  rcases List.mem_map.mp hmem with ⟨g, hg, rfl⟩
  have hgf := hseg g hg
  have hsp := strip_isPref_nonws secMark_ne_nil secMark_nonws hgf.1
  refine ⟨hsp.1, hsp.2, strip_idem g, ?_⟩
  intro i hi
  exact hgf.2 i (occ_mono (strip_isPref_of_secMark hgf.1) hi)

theorem extract_intro_facts {doc intro : List Char} {secs : List (List Char)}
    (h : extract doc = Except.ok (intro, secs)) :
    strip intro = intro ∧ ∀ i, ¬ Occ secMark intro i := by
  obtain ⟨_, _, h3, _⟩ := extract_ok_elim h
  subst h3
  exact ⟨strip_idem _,
    no_occ_strip (spanToOcc_fst_no_occ secMark_ne_nil (bodyOf doc))⟩

theorem body_no_endMark (doc : List Char) : ∀ i, ¬ Occ endMark (bodyOf doc) i := by
  unfold bodyOf
  exact spanToOcc_fst_no_occ endMark_ne_nil _

theorem catAll_mem_infix {g : List Char} : ∀ {gs : List (List Char)}, g ∈ gs →
    ∃ a b, catAll gs = a ++ g ++ b := by
  intro gs
  induction gs with
  | nil => intro h; cases h
  | cons g' rest ih =>
    intro h
    rcases List.mem_cons.mp h with rfl | hm
    · exact ⟨[], catAll rest, rfl⟩
    · rcases ih hm with ⟨a, b, hab⟩
      refine ⟨g' ++ a, b, ?_⟩
      rw [catAll_cons, hab]
      simp [List.append_assoc]

theorem extract_no_endMark {doc intro : List Char} {secs : List (List Char)}
    (h : extract doc = Except.ok (intro, secs)) :
    (∀ i, ¬ Occ endMark intro i) ∧
    ∀ sec ∈ secs, ∀ i, ¬ Occ endMark sec i := by
  obtain ⟨_, _, h3, _⟩ := extract_ok_elim h
  have hbody := body_no_endMark doc
  have hfst : ∀ i, ¬ Occ endMark (spanToOcc secMark (bodyOf doc)).1 i := by
    intro i hi
    exact hbody i (occ_mono ⟨_, (spanToOcc_cat secMark (bodyOf doc)).symm⟩ hi)
  constructor
  · subst h3
    exact no_occ_strip hfst
  · obtain ⟨gs, hsm, hmap, hcat, hseg⟩ := extract_ok_secs h
    intro sec hmem
    rw [hmap] at hmem
    rcases List.mem_map.mp hmem with ⟨g, hg, rfl⟩
    have hgq : ∀ i, ¬ Occ endMark g i := by
      intro i hi
      rcases catAll_mem_infix hg with ⟨a, b, hab⟩
      have h2 : Occ endMark (catAll gs) (a.length + i) := by
        rw [hab, List.append_assoc]
        have h3 := occ_append_left a hi
        exact occ_mono ⟨b, by rw [List.append_assoc]⟩ h3
      have h4 : Occ endMark (bodyOf doc)
          ((spanToOcc secMark (bodyOf doc)).1.length + (a.length + i)) := by
        have h5 := occ_append_left (spanToOcc secMark (bodyOf doc)).1
          (hcat ▸ h2)
        rw [spanToOcc_cat] at h5
        exact h5
      exact hbody _ h4
    exact no_occ_strip hgq

/-! Remaining helper lemmas. -/

theorem spanToOcc_drop (pat s : List Char) :
    s.drop (spanToOcc pat s).1.length = (spanToOcc pat s).2 := by
  have h := spanToOcc_cat pat s
  have h2 := congrArg (List.drop (spanToOcc pat s).1.length) h
  rw [List.drop_left] at h2
  exact h2.symm

theorem occ_drop_shift {pat s : List Char} (hp : pat ≠ []) {n i : Nat}
    (h : Occ pat (s.drop n) i) : Occ pat s (n + i) := by
  rcases le_or_lt n s.length with hn | hn
  · have h2 := occ_append_left (s.take n) h
    rw [List.take_append_drop] at h2
    rwa [List.length_take, Nat.min_eq_left hn] at h2
  · rw [List.drop_eq_nil_of_le (by omega)] at h
    exact absurd h (occ_nil hp i)

theorem occ_glue_none {pat x y : List Char} (hp : pat ≠ [])
    (hnl : ∀ a ∈ pat, a ≠ '\n') (hx : ∀ i, ¬ Occ pat x i)
    (hy : ∀ i, ¬ Occ pat y i) : ∀ i, ¬ Occ pat (x ++ nl2 ++ y) i := by
  intro i hi
  rcases occ_glue hp hnl hi with hL | ⟨j, _, hR⟩
  · exact hx i hL
  · exact hy j hR

theorem preambleOf_of_ne {doc : List Char} (h : (spanToOcc beginMark doc).2 ≠ []) :
    preambleOf doc = (spanToOcc beginMark doc).1 := by
  unfold preambleOf
  rw [if_neg (fun hcc => h (List.isEmpty_eq_true.mp hcc))]

theorem map_strip_nl : ∀ l : List (List Char), (∀ s ∈ l, strip s = s) →
    l.map (strip ∘ fun sec => sec ++ nl2) = l := by
  intro l
  induction l with
  | nil => intro _; rfl
  | cons s r ih =>
    intro h
    rw [List.map_cons, ih (fun a ha => h a (List.mem_cons_of_mem s ha))]
    have h2 : (strip ∘ fun sec => sec ++ nl2) s = s := by
      show strip (s ++ nl2) = s
      rw [strip_app_right s nl2_ws]
      exact h s (List.mem_cons_self s r)
    rw [h2]

/-! The claims. -/

/-- Claim C9: for every document text with no occurrence of the literal marker
`\begin{document}`, segmentation fails with the `MalformedDocument` error (the
uncaught `IndexError` of `resume_content.split("\\begin{document}", 1)[1]`),
which is fatal and surfaced to the caller. -/
theorem claim_C9 (doc : List Char) (h : ∀ i, ¬ Occ beginMark doc i) :
    extract doc = Except.error ExtractErr.MalformedDocument := by
  unfold extract
  rw [if_pos]
  rw [List.isEmpty_eq_true]
  exact (spanToOcc_snd_nil_iff beginMark_ne_nil doc).mpr h

theorem claim_C9_witness :
    extract (("hello world, no marker here").data) =
      Except.error ExtractErr.MalformedDocument :=
  claim_C9 (("hello world, no marker here").data)
    ((occCount_eq_zero beginMark_ne_nil).mp (by decide))

/-- Claim C4: for every document that contains `\begin{document}` but whose body
contains zero occurrences of `\section`, segmentation raises the
`NoSectionsFound` error and produces no output (the error is returned instead
of an `(intro, sections)` result; in the source, `self.intro`/`self.sections`
are assigned only after the raise point, so they stay unset). -/
theorem claim_C4 (doc : List Char) (hb : ∃ i, Occ beginMark doc i)
    (hs : occCount secMark (bodyOf doc) = 0) :
    extract doc = Except.error ExtractErr.NoSectionsFound := by
  have h1 : ¬ ((spanToOcc beginMark doc).2).isEmpty = true := by
    intro he
    rcases hb with ⟨i, hi⟩
    exact (spanToOcc_snd_nil_iff beginMark_ne_nil doc).mp
      (List.isEmpty_eq_true.mp he) i hi
  have h2 : ((spanToOcc secMark (bodyOf doc)).2).isEmpty = true := by
    rw [List.isEmpty_eq_true]
    exact (spanToOcc_snd_nil_iff secMark_ne_nil (bodyOf doc)).mpr
      ((occCount_eq_zero secMark_ne_nil).mp hs)
  unfold extract
  rw [if_neg h1, if_pos h2]

theorem claim_C4_witness :
    extract (("\\begin{document}hello there\\end{document}").data) =
      Except.error ExtractErr.NoSectionsFound :=
  claim_C4 (("\\begin{document}hello there\\end{document}").data)
    ⟨0, by decide⟩ (by decide)

/-- Claim C2: for every document accepted by the segmenter, if the body between
the markers contains exactly `k` occurrences of the substring `\section`, then
segmentation returns exactly `k` sections, every one of them non-empty after
whitespace trimming (already trimmed, `strip sec = sec`) and beginning with the
`\section` marker (which covers both `\section` and `\section*` starts).  This
holds in particular for runs of adjacent markers, which yield one section per
marker (see the witness). -/
theorem claim_C2 (doc intro : List Char) (secs : List (List Char)) (k : Nat)
    (hok : extract doc = Except.ok (intro, secs))
    (hk : occCount secMark (bodyOf doc) = k) :
    secs.length = k ∧
    ∀ sec ∈ secs, sec ≠ [] ∧ strip sec = sec ∧ IsPref secMark sec := by
  constructor
  · obtain ⟨gs, hsm, hmap, hcat, hseg⟩ := extract_ok_secs hok
    have hlen1 := splitMarks_length secMark (spanToOcc secMark (bodyOf doc)).2
    rw [hsm] at hlen1
    have hdrop : occCount secMark (bodyOf doc) =
        occCount secMark
          ((bodyOf doc).drop (spanToOcc secMark (bodyOf doc)).1.length) := by
      apply occCount_drop
      intro i hi hocc
      have := spanToOcc_min secMark_ne_nil (bodyOf doc) i hocc
      omega
    rw [spanToOcc_drop secMark (bodyOf doc)] at hdrop
    rw [hmap, List.length_map]
    simp only [List.length_cons] at hlen1
    omega
  · intro sec hmem
    have hf := extract_sec_facts hok sec hmem
    exact ⟨hf.2.1, hf.2.2.1, hf.1⟩

theorem claim_C2_witness :
    [("\\section").data, ("\\section{A}x").data].length = 2 ∧
    ∀ sec ∈ [("\\section").data, ("\\section{A}x").data],
      sec ≠ [] ∧ strip sec = sec ∧ IsPref secMark sec :=
  claim_C2 (("\\begin{document}hi\\section\\section{A}x\\end{document}").data)
    (("hi").data) [("\\section").data, ("\\section{A}x").data] 2 rfl (by decide)

/-- Claim C10: for every document accepted by the segmenter, the returned intro
contains no occurrence of the substring `\section`, and every returned section
contains exactly one occurrence of `\section`, located at its first character
(the marker is a prefix of the trimmed section). -/
theorem claim_C10 (doc intro : List Char) (secs : List (List Char))
    (hok : extract doc = Except.ok (intro, secs)) :
    (∀ i, ¬ Occ secMark intro i) ∧
    ∀ sec ∈ secs, occCount secMark sec = 1 ∧ IsPref secMark sec := by
  refine ⟨(extract_intro_facts hok).2, ?_⟩
  intro sec hmem
  have hf := extract_sec_facts hok sec hmem
  exact ⟨occCount_one secMark_ne_nil (occ_zero.mpr hf.1) hf.2.2.2, hf.1⟩

theorem claim_C10_witness :
    (∀ i, ¬ Occ secMark (("me").data) i) ∧
    ∀ sec ∈ [("\\section{A}\nxx").data, ("\\section*{B}\nyy").data],
      occCount secMark sec = 1 ∧ IsPref secMark sec :=
  claim_C10
    (("\\begin{document}\nme\n\\section{A}\nxx\n\\section*{B}\nyy\n\\end{document}").data)
    (("me").data) [("\\section{A}\nxx").data, ("\\section*{B}\nyy").data] rfl

/-- Claim C5: for every accepted document whose body contains the starred marker
`\section*{Skills}`, segmentation yields a section beginning exactly with
`\section*{Skills}`: the split never detaches the `*` (or the title) from its
section, because the cut positions are exactly the positions where the literal
`\section` occurs and no cut can fall strictly inside the starred marker text. -/
theorem claim_C5 (doc intro : List Char) (secs : List (List Char)) (p : Nat)
    (hok : extract doc = Except.ok (intro, secs))
    (hst : Occ (("\\section*{Skills}").data) (bodyOf doc) p) :
    ∃ sec ∈ secs, IsPref (("\\section*{Skills}").data) sec := by
  obtain ⟨gs, hsm, hmap, hcat, hseg⟩ := extract_ok_secs hok
  have hXpref : IsPref secMark (("\\section*{Skills}").data) := by decide
  have hsec : Occ secMark (bodyOf doc) p := occ_sub hXpref hst
  have hmin := spanToOcc_min secMark_ne_nil (bodyOf doc) p hsec
  have hsplit : bodyOf doc =
      (spanToOcc secMark (bodyOf doc)).1 ++ (spanToOcc secMark (bodyOf doc)).2 :=
    (spanToOcc_cat secMark (bodyOf doc)).symm
  have hq2 : Occ (("\\section*{Skills}").data) (spanToOcc secMark (bodyOf doc)).2
      (p - (spanToOcc secMark (bodyOf doc)).1.length) :=
    occ_in_right (hsplit ▸ hst) hmin
  rw [hcat] at hq2
  rcases occ_catAll secMark_ne_nil secMark_head hXpref (by decide) gs hseg hq2 with
    ⟨g, hg, hXg⟩
  refine ⟨strip g, ?_, ?_⟩
  · rw [hmap]
    exact List.mem_map.mpr ⟨g, hg, rfl⟩
  · exact (strip_isPref_nonws (by decide) (by decide) hXg).1

theorem claim_C5_witness :
    ∃ sec ∈ [("\\section*{Skills}Py").data],
      IsPref (("\\section*{Skills}").data) sec :=
  claim_C5 (("\\begin{document}\\section*{Skills}Py\\end{document}").data) []
    [("\\section*{Skills}Py").data] 0 rfl (by decide)

/-- Claim C6: a document containing `\begin{document}` and at least one section
marker in its body but no occurrence of `\end{document}` still segments
successfully, with the body running to the end of the text (the truncation at
`\end{document}` removes nothing), and assembly succeeds, terminating the
output with the synthesized literal default end marker `\end{document}`. -/
theorem claim_C6 (doc : List Char) (i0 : Nat) (hb : Occ beginMark doc i0)
    (he : ∀ i, ¬ Occ endMark doc i) (hs : ∃ j, Occ secMark (bodyOf doc) j) :
    bodyOf doc = (spanToOcc beginMark doc).2.drop beginMark.length ∧
    ∃ intro secs, extract doc = Except.ok (intro, secs) ∧
      ∃ pre, assemble doc intro secs = pre ++ endMark := by
  have hbody : bodyOf doc = (spanToOcc beginMark doc).2.drop beginMark.length := by
    unfold bodyOf
    have hno : ∀ i,
        ¬ Occ endMark ((spanToOcc beginMark doc).2.drop beginMark.length) i := by
      intro i hi
      have h1 : Occ endMark (spanToOcc beginMark doc).2 (beginMark.length + i) :=
        occ_drop_shift endMark_ne_nil hi
      have h2 := occ_append_left (spanToOcc beginMark doc).1 h1
      rw [spanToOcc_cat beginMark doc] at h2
      exact he _ h2
    rw [spanToOcc_of_no_occ endMark_ne_nil _ hno]
  refine ⟨hbody, ?_⟩
  have hbne : ¬ ((spanToOcc beginMark doc).2).isEmpty = true := by
    intro h0
    exact (spanToOcc_snd_nil_iff beginMark_ne_nil doc).mp
      (List.isEmpty_eq_true.mp h0) i0 hb
  have hsne : ¬ ((spanToOcc secMark (bodyOf doc)).2).isEmpty = true := by
    intro h0
    rcases hs with ⟨j, hj⟩
    exact (spanToOcc_snd_nil_iff secMark_ne_nil (bodyOf doc)).mp
      (List.isEmpty_eq_true.mp h0) j hj
  refine ⟨strip (spanToOcc secMark (bodyOf doc)).1,
    ((splitMarks secMark (spanToOcc secMark (bodyOf doc)).2).map strip).filter
      (fun l => !l.isEmpty), ?_, ?_⟩
  · unfold extract
    rw [if_neg hbne, if_neg hsne]
  · unfold assemble endDocumentOf
    rw [rpartAfter_none he]
    exact ⟨_, rfl⟩

theorem claim_C6_witness :
    bodyOf (("p\\begin{document}x\\section{A}b").data) =
      ((spanToOcc beginMark (("p\\begin{document}x\\section{A}b").data)).2.drop
        beginMark.length) ∧
    ∃ intro secs,
      extract (("p\\begin{document}x\\section{A}b").data) =
        Except.ok (intro, secs) ∧
      ∃ pre, assemble (("p\\begin{document}x\\section{A}b").data) intro secs =
        pre ++ endMark :=
  claim_C6 (("p\\begin{document}x\\section{A}b").data) 1 (by decide)
    ((occCount_eq_zero endMark_ne_nil).mp (by decide)) ⟨1, by decide⟩

/-- Claim C3 fails on the code: the claim says the preamble used by assembly is
the substring before the first `\begin{document}` and is EMPTY when that marker
is absent, but Python `str.partition` returns the whole string as the first
component when the separator is absent, so `assemble_resume` then uses the
ENTIRE original text as preamble.  On the document `"X"` (no marker) the code's
output and the claimed formula differ. -/
theorem claim_C3_counterexample :
    assemble (("X").data) (("I").data) [("\\section s").data] ≠
      assembleClaimed (("X").data) (("I").data) [("\\section s").data] := by
  decide

/-- Claim C3 (amended): the assembled output equals exactly
`preamble ++ "\begin{document}\n\n" ++ intro ++ "\n\n" ++ join(sections, "\n\n")
 ++ "\n\n" ++ end_marker`, where the preamble is the substring before the first
`\begin{document}` occurrence — or the ENTIRE original text (not the empty
string) when that marker is absent — and the end marker is the last
`\end{document}` occurrence concatenated with everything after it, or the
literal `\end{document}` when absent. -/
theorem claim_C3_amended (doc intro : List Char) (secs : List (List Char)) :
    assemble doc intro secs = assembleAmended doc intro secs := by
  unfold assemble assembleAmended preambleOf endDocumentOf
  have hpre : (if ((spanToOcc beginMark doc).2).isEmpty then doc
      else (spanToOcc beginMark doc).1) =
      (match findIdx beginMark doc with
       | none => doc
       | some i => doc.take i) := by
    cases hfi : findIdx beginMark doc with
    | none =>
      have h2 : (spanToOcc beginMark doc).2 = [] :=
        (findIdx_none_iff beginMark doc).mp hfi
      rw [if_pos (by rw [h2]; rfl)]
    | some i =>
      rcases findIdx_some beginMark hfi with ⟨h1, _⟩
      have h3 : ¬ ((spanToOcc beginMark doc).2).isEmpty = true := by
        intro hcc
        rw [(findIdx_none_iff beginMark doc).mpr (List.isEmpty_eq_true.mp hcc)]
          at hfi
        cases hfi
      rw [if_neg h3, h1]
  have hend : (rpartAfter endMark doc).getD endMark =
      (match findLastIdx endMark doc with
       | none => endMark
       | some j => doc.drop j) := by
    rw [rpartAfter_findLastIdx]
    cases findLastIdx endMark doc with
    | none => rfl
    | some j => rfl
  rw [hpre, hend]

/-- Claim C7 is contradicted by the code: the fallback
`response.get("response", sec)` substitutes the original section only when the
`"response"` KEY is missing; a present-but-EMPTY response value (the
collaborator returning an empty result) is substituted as the empty string, not
as the original section — although the code's own inline comment says
"fallback to original if empty".  Evaluation at the failing input: an empty
reply for the section `\section{Skills} Python` yields `""`, and processing
continues with that empty text in the tailored sequence; only the missing-key
reply keeps the original. -/
theorem claim_C7_code_bug :
    editedSection (some []) (("\\section{Skills} Python").data) = [] ∧
    editedSection (some []) (("\\section{Skills} Python").data) ≠
      (("\\section{Skills} Python").data) ∧
    editedSection none (("\\section{Skills} Python").data) =
      (("\\section{Skills} Python").data) ∧
    tailorSections [some []] [("\\section{Skills} Python").data] = [[]] := by
  exact ⟨rfl, by decide, rfl, rfl⟩

/-- Claim C8 fails on the code: `assemble_resume` itself is not side-effect
free — it writes the assembled text to `self.outfile` and invokes the external
build tool `latexmk` via `subprocess.run`; those actions are performed inside
the method, not left to a caller.  Concrete instance: the effect trace of an
invocation contains a file write and a process run and is not empty. -/
theorem claim_C8_counterexample :
    Effect.writeFile (("out.tex").data)
        (assemble (("d").data) (("i").data) []) ∈
      assembleResumeEffects (("out.tex").data) (("d").data) (("i").data) [] ∧
    Effect.runProcess
        [("latexmk").data, ("-cd").data, ("-pdf").data, ("out.tex").data] ∈
      assembleResumeEffects (("out.tex").data) (("d").data) (("i").data) [] ∧
    assembleResumeEffects (("out.tex").data) (("d").data) (("i").data) [] ≠ [] := by
  refine ⟨List.mem_cons_self _ _, List.mem_cons_of_mem _ (List.mem_cons_self _ _), ?_⟩
  intro h
  cases h

/-- Claim C8 (amended): for every invocation, `assemble_resume` itself performs
exactly two side effects, in order: one write of the assembled document text to
the output file, then one invocation of the external build tool
(`latexmk -cd -pdf`) on that file.  Only the text construction `assemble` is
effect-free; writing and building are NOT left to the caller. -/
theorem claim_C8_amended (outfile doc intro : List Char) (secs : List (List Char)) :
    (assembleResumeEffects outfile doc intro secs).length = 2 ∧
    assembleResumeEffects outfile doc intro secs =
      [Effect.writeFile outfile (assemble doc intro secs),
       Effect.runProcess [("latexmk").data, ("-cd").data, ("-pdf").data, outfile]] :=
  ⟨rfl, rfl⟩

/-- Claim C1 (round trip): for every document with exactly one `\begin{document}`
marker, whose `\end{document}` marker (when present) occurs only at the very
end, and which the segmenter accepts, assembling with the unmodified intro and
sections reproduces a document whose preamble is textually identical to the
original's, and re-segmenting the assembled output yields the same intro and
the same ordered sequence of sections as segmenting the original. -/
theorem claim_C1 (doc intro : List Char) (secs : List (List Char))
    (hone : occCount beginMark doc = 1)
    (hend : ∀ i, Occ endMark doc i → i + endMark.length = doc.length)
    (hok : extract doc = Except.ok (intro, secs)) :
    preambleOf (assemble doc intro secs) = preambleOf doc ∧
    extract (assemble doc intro secs) = Except.ok (intro, secs) := by
  have _hone := hone
  have _hend := hend
  obtain ⟨h1, h2, hintroE, hsecsE⟩ := extract_ok_elim hok
  have hintrofacts := extract_intro_facts hok
  have hsecfacts := extract_sec_facts hok
  have hnoend := extract_no_endMark hok
  obtain ⟨gs, hsm, hmap, hcat, hseg⟩ := extract_ok_secs hok
  have hgs_ne : gs ≠ [] := by
    intro h0
    rw [h0, catAll_nil] at hcat
    exact h2 hcat
  have hsecs_ne : secs ≠ [] := by
    rw [hmap]
    intro h0
    exact hgs_ne (List.map_eq_nil_iff.mp h0)
  have hpre0 : preambleOf doc = (spanToOcc beginMark doc).1 := preambleOf_of_ne h1
  have hEpref : IsPref endMark (endDocumentOf doc) := by
    unfold endDocumentOf
    cases hrp : rpartAfter endMark doc with
    | none => exact isPref_refl endMark
    | some r => exact rpartAfter_isPref hrp
  obtain ⟨Etail, hE⟩ := hEpref
  have hA : assemble doc intro secs =
      (spanToOcc beginMark doc).1 ++ beginMark ++
        (nl2 ++ intro ++ nl2 ++ joinNl secs ++ nl2 ++ (endMark ++ Etail)) := by
    unfold assemble
    rw [hpre0, hE]
    simp [List.append_assoc]
  have hspan1 : spanToOcc beginMark (assemble doc intro secs) =
      ((spanToOcc beginMark doc).1,
        beginMark ++
          (nl2 ++ intro ++ nl2 ++ joinNl secs ++ nl2 ++ (endMark ++ Etail))) := by
    rw [hA]
    exact spanToOcc_exact beginMark_ne_nil beginMark_unbordered
      (spanToOcc_fst_no_occ beginMark_ne_nil doc)
  have hJ_noend : ∀ i, ¬ Occ endMark (joinNl secs) i :=
    joinNl_no_occ endMark_ne_nil endMark_no_nl secs hnoend.2
  have hmidno : ∀ i, ¬ Occ endMark (nl2 ++ intro ++ nl2 ++ joinNl secs ++ nl2) i := by
    have inner1 := occ_glue_none endMark_ne_nil endMark_no_nl hJ_noend
      (occ_nil endMark_ne_nil)
    have inner2 := occ_glue_none endMark_ne_nil endMark_no_nl hnoend.1 inner1
    have outer := occ_glue_none endMark_ne_nil endMark_no_nl
      (occ_nil endMark_ne_nil) inner2
    have heq : nl2 ++ intro ++ nl2 ++ joinNl secs ++ nl2 =
        [] ++ nl2 ++ ((intro ++ nl2) ++ ((joinNl secs ++ nl2) ++ [])) := by
      simp [List.append_assoc]
    rw [heq]
    exact outer
  have hmid : nl2 ++ intro ++ nl2 ++ joinNl secs ++ nl2 ++ (endMark ++ Etail) =
      (nl2 ++ intro ++ nl2 ++ joinNl secs ++ nl2) ++ endMark ++ Etail := by
    simp [List.append_assoc]
  have hbodyA : bodyOf (assemble doc intro secs) =
      nl2 ++ intro ++ nl2 ++ joinNl secs ++ nl2 := by
    unfold bodyOf
    rw [hspan1]
    show (spanToOcc endMark
      ((beginMark ++
        (nl2 ++ intro ++ nl2 ++ joinNl secs ++ nl2 ++ (endMark ++ Etail))).drop
          beginMark.length)).1 = nl2 ++ intro ++ nl2 ++ joinNl secs ++ nl2
    rw [List.drop_left, hmid,
      spanToOcc_exact endMark_ne_nil endMark_unbordered hmidno]
  have hJpref : IsPref secMark (joinNl secs) := by
    cases hsecs : secs with
    | nil => exact absurd hsecs hsecs_ne
    | cons s rest =>
      have hsp := (hsecfacts s (by rw [hsecs]; exact List.mem_cons_self s rest)).1
      cases rest with
      | nil => exact hsp
      | cons s2 r2 =>
        show IsPref secMark (s ++ nl2 ++ joinNl (s2 :: r2))
        exact isPref_append_right _ (isPref_append_right nl2 hsp)
  obtain ⟨Jt, hJt⟩ := hJpref
  have hP3no : ∀ i, ¬ Occ secMark (nl2 ++ intro ++ nl2) i := by
    have inner := occ_glue_none secMark_ne_nil secMark_no_nl hintrofacts.2
      (occ_nil secMark_ne_nil)
    have outer := occ_glue_none secMark_ne_nil secMark_no_nl
      (occ_nil secMark_ne_nil) inner
    have heq : nl2 ++ intro ++ nl2 = [] ++ nl2 ++ ((intro ++ nl2) ++ []) := by
      simp [List.append_assoc]
    rw [heq]
    exact outer
  have hmid2 : nl2 ++ intro ++ nl2 ++ joinNl secs ++ nl2 =
      (nl2 ++ intro ++ nl2) ++ secMark ++ (Jt ++ nl2) := by
    rw [hJt]
    simp [List.append_assoc]
  have hsnd3 : secMark ++ (Jt ++ nl2) = joinNl secs ++ nl2 := by
    rw [hJt]
    simp [List.append_assoc]
  have hspan3 : spanToOcc secMark (bodyOf (assemble doc intro secs)) =
      (nl2 ++ intro ++ nl2, joinNl secs ++ nl2) := by
    rw [hbodyA, hmid2,
      spanToOcc_exact secMark_ne_nil secMark_unbordered hP3no, hsnd3]
  have hstrip4 : strip (nl2 ++ intro ++ nl2) = intro := by
    rw [strip_app_right (nl2 ++ intro) nl2_ws, strip_app_left intro nl2_ws]
    exact hintrofacts.1
  have hsm5 := splitMarks_joinNl secMark_ne_nil secMark_unbordered secMark_no_nl
    secs hsecs_ne (fun sec hm => ⟨(hsecfacts sec hm).1, (hsecfacts sec hm).2.2.2⟩)
  have hfilter : (([] : List Char) :: secs).filter (fun l => !l.isEmpty) = secs := by
    rw [List.filter_cons]
    simp only [List.isEmpty_nil, Bool.not_true, Bool.false_eq_true, if_false]
    rw [List.filter_eq_self.mpr]
    intro a ha
    cases hsa : a with
    | nil => exact absurd hsa ((hsecfacts a ha).2.1)
    | cons b z => rfl
  have hA2ne : (spanToOcc beginMark (assemble doc intro secs)).2 ≠ [] := by
    rw [hspan1]
    exact isPref_ne_nil
      ⟨nl2 ++ intro ++ nl2 ++ joinNl secs ++ nl2 ++ (endMark ++ Etail), rfl⟩
      beginMark_ne_nil
  constructor
  · rw [preambleOf_of_ne hA2ne, hspan1, hpre0]
  · have hc1 : ¬ ((spanToOcc beginMark (assemble doc intro secs)).2).isEmpty = true :=
      fun hcc => hA2ne (List.isEmpty_eq_true.mp hcc)
    have hc2 : ¬ ((spanToOcc secMark
        (bodyOf (assemble doc intro secs))).2).isEmpty = true := by
      rw [hspan3]
      intro hcc
      rcases List.append_eq_nil.mp (List.isEmpty_eq_true.mp hcc) with ⟨_, hnl⟩
      exact absurd hnl (by decide)
    unfold extract
    rw [if_neg hc1, if_neg hc2, hspan3]
    show Except.ok (strip (nl2 ++ intro ++ nl2),
      ((splitMarks secMark (joinNl secs ++ nl2)).map strip).filter
        (fun l => !l.isEmpty)) = Except.ok (intro, secs)
    rw [hstrip4, hsm5, List.map_cons, List.map_map]
    have hstripnil : strip ([] : List Char) = [] := rfl
    rw [hstripnil, map_strip_nl secs (fun a ha => (hsecfacts a ha).2.2.1), hfilter]

theorem occ_end_at_end_of_ball {doc : List Char}
    (h : ∀ i, i < doc.length → Occ endMark doc i → i + endMark.length = doc.length) :
    ∀ i, Occ endMark doc i → i + endMark.length = doc.length := by
  intro i hocc
  have hb := occ_length hocc
  have hp : 0 < endMark.length := by decide
  exact h i (by omega) hocc

theorem claim_C1_witness :
    preambleOf (assemble
        (("P\n\\begin{document}\nMe\n\\section{A}\naa\n\\section*{B}\nbb\n\\end{document}").data)
        (("Me").data) [("\\section{A}\naa").data, ("\\section*{B}\nbb").data]) =
      preambleOf
        (("P\n\\begin{document}\nMe\n\\section{A}\naa\n\\section*{B}\nbb\n\\end{document}").data) ∧
    extract (assemble
        (("P\n\\begin{document}\nMe\n\\section{A}\naa\n\\section*{B}\nbb\n\\end{document}").data)
        (("Me").data) [("\\section{A}\naa").data, ("\\section*{B}\nbb").data]) =
      Except.ok ((("Me").data),
        [("\\section{A}\naa").data, ("\\section*{B}\nbb").data]) :=
  claim_C1
    (("P\n\\begin{document}\nMe\n\\section{A}\naa\n\\section*{B}\nbb\n\\end{document}").data)
    (("Me").data) [("\\section{A}\naa").data, ("\\section*{B}\nbb").data]
    (by decide)
    (occ_end_at_end_of_ball (by decide))
    rfl

end ResumeSpec
